import Mathlib

/-!
Verification development for the reduced GTSAM corpus: a shallow embedding of
the incremental Bayes-tree updater (`ISAM::update_internal`), the hybrid
Bayes-tree assignment resolver (`HybridBayesTree::optimize`), the wrapped
discrete factor comparison (`HybridDiscreteFactor::equals`) and the
hard-equality factor (`NonlinearEquality`), together with theorems about them.

Machine doubles are modelled as extended rationals (`WithTop ℚ`): `⊤` stands
for the IEEE value `+infinity` produced by `std::numeric_limits<double>::infinity()`.
-/

namespace Spec2Proof

/-- Model of the C++ `double`: a rational, or `⊤` for positive infinity. -/
abbrev Dbl := WithTop ℚ

/-- A decidable equality for `Except`, used only to evaluate concrete runs. -/
def exceptDecEq {ε α : Type} [DecidableEq ε] [DecidableEq α] :
    (a b : Except ε α) → Decidable (a = b)
  | .ok a, .ok b =>
    match decEq a b with
    | isTrue h => isTrue (by rw [h])
    | isFalse h => isFalse (fun hc => h (Except.ok.inj hc))
  | .ok _, .error _ => isFalse (fun hc => Except.noConfusion hc)
  | .error _, .ok _ => isFalse (fun hc => Except.noConfusion hc)
  | .error e, .error f =>
    match decEq e f with
    | isTrue h => isTrue (by rw [h])
    | isFalse h => isFalse (fun hc => h (Except.error.inj hc))

instance {ε α : Type} [DecidableEq ε] [DecidableEq α] : DecidableEq (Except ε α) :=
  exceptDecEq

/-! ## NonlinearEquality (src/nonlinear/NonlinearEquality.h)

The factor is templated over `Config`, `Key`, `T` in the source; here `Key` is
`ℕ`, a `Config` is a total assignment `ℕ → T`, and the external capabilities
`dim`, `logmap` and the comparison function (stored in the `compare_` member)
are carried as data.  Vectors are lists of `Dbl`, matrices lists of rows. -/

/-- `inner_prod(e, e)` on vectors of doubles. -/
def innerProd (a b : List Dbl) : Dbl :=
  (List.zipWith (fun x y => x * y) a b).sum

/-- The identity matrix `eye(n)` over doubles. -/
def eyeM (n : ℕ) : List (List Dbl) :=
  (List.range n).map (fun i => (List.range n).map (fun j => if i = j then 1 else 0))

/-- `NonlinearEquality<Config, Key, T>`: the stored feasible value, the
`allow_error_` flag, the `error_gain_` (infinite in exact mode), the stored
comparison function `compare_`, and the external `dim`/`logmap` capabilities
of the value type `T`. -/
structure NonlinearEqualityM (T : Type) where
  key : ℕ
  feasible : T
  allow_error : Bool
  error_gain : Dbl
  compare : T → T → Bool
  dimT : ℕ
  logmap : T → T → List Dbl

/-- The exact-evaluation constructor: `allow_error_ = false`,
`error_gain_ = std::numeric_limits<double>::infinity()`. -/
def mkExact {T : Type} (key : ℕ) (feasible : T) (compare : T → T → Bool)
    (dimT : ℕ) (logmap : T → T → List Dbl) : NonlinearEqualityM T :=
  { key := key, feasible := feasible, allow_error := false, error_gain := ⊤,
    compare := compare, dimT := dimT, logmap := logmap }

/-- The inexact-evaluation constructor: `allow_error_ = true` with a finite gain. -/
def mkAllowError {T : Type} (key : ℕ) (feasible : T) (error_gain : ℚ)
    (compare : T → T → Bool) (dimT : ℕ) (logmap : T → T → List Dbl) :
    NonlinearEqualityM T :=
  { key := key, feasible := feasible, allow_error := true, error_gain := (error_gain : ℚ),
    compare := compare, dimT := dimT, logmap := logmap }

/-- `NonlinearEquality::evaluateError(xj, H)`.  `needH` says whether the
optional Jacobian output was requested; the returned pair is the error vector
and the Jacobian that was written (present exactly when requested).  The
infeasible-with-Jacobian branch throws `std::invalid_argument`, modelled as
`Except.error`. -/
def evaluateError {T : Type} (f : NonlinearEqualityM T) (xj : T) (needH : Bool) :
    Except String (List Dbl × Option (List (List Dbl))) :=
  let nj := f.dimT
  if f.allow_error then
    .ok (f.logmap xj f.feasible, if needH then some (eyeM nj) else none)
  else if f.compare f.feasible xj then
    .ok (List.replicate nj 0, if needH then some (eyeM nj) else none)
  else if needH then
    .error ("Linearization point not feasible for " ++ toString f.key ++ "!")
  else
    .ok (List.replicate nj ⊤, none)

/-- `NonlinearFactor1::unwhitenedError(c)`: evaluate the error at the
configuration's value for the key, with no Jacobian requested.  With
`needH = false` the evaluation never throws, so the error branch of the match
is unreachable. -/
def unwhitenedError {T : Type} (f : NonlinearEqualityM T) (c : ℕ → T) : List Dbl :=
  match evaluateError f (c f.key) false with
  | .ok (e, _) => e
  | .error _ => []

/-- `NonlinearEquality::error(c)`. -/
def errorFn {T : Type} (f : NonlinearEqualityM T) (c : ℕ → T) : Dbl :=
  let xj := c f.key
  let e := unwhitenedError f c
  if f.allow_error || !(f.compare xj f.feasible) then
    f.error_gain * innerProd e e
  else
    0

/-- The linear Gaussian factor built by `NonlinearEquality::linearize`:
key, Jacobian `A`, right-hand side `b`, and the dimension of the
`noiseModel::Constrained::All(b.size())` model. -/
structure GaussianFactorM where
  key : ℕ
  A : List (List Dbl)
  b : List Dbl
  modelDim : ℕ
deriving DecidableEq

/-- `NonlinearEquality::linearize(x)`: evaluate the error with the Jacobian
requested and package the result as a constrained Gaussian factor; the
infeasibility exception propagates to the caller. -/
def linearize {T : Type} (f : NonlinearEqualityM T) (x : ℕ → T) :
    Except String GaussianFactorM := do
  let xj := x f.key
  let (b, A) ← evaluateError f xj true
  return { key := f.key, A := A.getD [], b := b, modelDim := b.length }

/-! ## Hybrid Bayes tree (src/gtsam/hybrid/HybridDiscreteFactor.cpp)

`HybridBayesTree::optimize(assignment)` iterates over the `nodes()` index (a
map from key to clique), keeps a seen-set `added_keys` of frontal variables,
and pushes the Gaussian branch selected by the discrete assignment whenever
the clique's conditional is hybrid.  The type of Gaussian conditionals is an
arbitrary parameter `GC`; a hybrid conditional stores a decision-keyed mapping
from discrete assignments to Gaussian conditionals. -/

/-- A discrete assignment (`DiscreteValues`): discrete key to chosen value. -/
abbrev DiscreteValuesM := List (ℕ × ℕ)

/-- Modelled from the spec: the decision-keyed mapping stored by a hybrid
conditional ("a Hybrid conditional stores one Gaussian conditional per
discrete assignment (a decision-keyed mapping from assignment to Gaussian
conditional)"); the tree form gives a lookup proportional to the assignment
depth, not to the number of stored branches.  The concrete
`DecisionTree`-based mixture class is not part of the source corpus. -/
inductive GaussianMixture (GC : Type) where
  | leaf (gc : GC)
  | choice (k : ℕ) (branches : List (GaussianMixture GC))

/-- Modelled from the spec: branch selection `(*gm)(assignment)` of the
decision mapping — follow the assignment's value at each decision key. -/
def chooseBranch {GC : Type} (a : DiscreteValuesM) : GaussianMixture GC → Option GC
  | .leaf gc => some gc
  | .choice k bs =>
    match a.lookup k with
    | none => none
    | some v =>
      match h : bs.get? v with
      | none => none
      | some b => chooseBranch a b
termination_by gm => sizeOf gm
decreasing_by
  simp_wf
  have hlt := List.sizeOf_lt_of_mem (List.get?_mem h)
  omega

/-- The kind of a `HybridConditional`: purely continuous (Gaussian), purely
discrete, or hybrid with a stored Gaussian mixture. -/
inductive CondKind (GC : Type) where
  | gaussian (gc : GC)
  | discrete
  | hybrid (gm : GaussianMixture GC)

/-- A `HybridConditional` as seen by `optimize`: its frontal variables and its
kind.  `isHybrid()` is true exactly on the `hybrid` alternative. -/
structure HConditional (GC : Type) where
  frontals : List ℕ
  kind : CondKind GC

/-- One loop iteration state of `HybridBayesTree::optimize` over the `nodes()`
entries: skip an entry whose key is already in `added_keys`; otherwise record
all the conditional's frontals and, if the conditional is hybrid, push the
Gaussian conditional selected by the assignment. -/
def optimizeGo {GC : Type} (a : DiscreteValuesM) :
    List (ℕ × HConditional GC) → List ℕ → List GC
  | [], _ => []
  | (k, cond) :: rest, added =>
    if k ∈ added then optimizeGo a rest added
    else
      match cond.kind with
      | .hybrid gm =>
        match chooseBranch a gm with
        | some gc => gc :: optimizeGo a rest (added ++ cond.frontals)
        | none => optimizeGo a rest (added ++ cond.frontals)
      | _ => optimizeGo a rest (added ++ cond.frontals)

/-- The Gaussian Bayes net built by `HybridBayesTree::optimize(assignment)`
from the `nodes()` entries (the subsequent back-substitution
`gbn.optimize()` is performed by the external Gaussian solver). -/
def optimizeGBN {GC : Type} (nodes : List (ℕ × HConditional GC))
    (a : DiscreteValuesM) : List GC :=
  optimizeGo a nodes []

/-- The sequence of conditionals that pass the `added_keys` guard in the same
loop (the conditionals of the cliques `optimize` visits and records), used to
state how often a clique's conditional is processed. -/
def optimizeEmitsGo {GC : Type} (a : DiscreteValuesM) :
    List (ℕ × HConditional GC) → List ℕ → List (HConditional GC)
  | [], _ => []
  | (k, cond) :: rest, added =>
    if k ∈ added then optimizeEmitsGo a rest added
    else cond :: optimizeEmitsGo a rest (added ++ cond.frontals)

/-- The guard-passing conditionals of a full `optimize` run. -/
def optimizeEmits {GC : Type} (nodes : List (ℕ × HConditional GC))
    (a : DiscreteValuesM) : List (HConditional GC) :=
  optimizeEmitsGo a nodes []

/-- What a single guard-passing conditional contributes to the Gaussian Bayes
net: its selected Gaussian branch if it is hybrid, nothing otherwise. -/
def hybridChoice {GC : Type} (a : DiscreteValuesM) (cond : HConditional GC) :
    Option GC :=
  match cond.kind with
  | .hybrid gm => chooseBranch a gm
  | _ => none

/-! ## HybridDiscreteFactor (src/gtsam/hybrid/HybridDiscreteFactor.cpp) -/

/-- The wrapped `DecisionTreeFactor`: its discrete keys (key, cardinality). -/
structure DecisionTreeFactorM where
  discreteKeys : List (ℕ × ℕ)
deriving DecidableEq

/-- `HybridDiscreteFactor`: a hybrid-factor wrapper around a discrete factor. -/
structure HybridDiscreteFactorM where
  discreteKeys : List (ℕ × ℕ)
  inner : DecisionTreeFactorM
deriving DecidableEq

/-- `HybridDiscreteFactor::equals(lf, tol)` — the body is literally
`return false;` (the comparison with the other factor is never performed).
Stated here for a wrapped discrete factor as the other argument. -/
def HybridDiscreteFactorM.equals (_f : HybridDiscreteFactorM)
    (_lf : HybridDiscreteFactorM) (_tol : ℚ) : Bool :=
  false

/-! ## Incremental updater (src/unnamed/part_001, `ISAM-inl.h`)

`ISAM::update_internal` itself is in the corpus; the Bayes-tree operations it
calls (`removeTop`, `eliminate`, `insert`, `findParentClique`) are not — only
this caller is — so those operations are modelled from the spec (sections 4.1
to 4.3), as marked on each definition.

Cliques live in an arena addressed by numeric identifiers; a clique owns one
conditional, a list of child identifiers, and a non-owning parent identifier
(the spec's recommended representation of the parent back-reference).  A tree
carries the arena, the variable-to-clique index, and the next fresh
identifier. -/

/-- A conditional over its frontal variables given its parent (separator)
variables. -/
structure CondM where
  frontals : List ℕ
  parents : List ℕ
deriving DecidableEq

/-- A factor: an ordered subset of variable keys. -/
structure FactorM where
  keys : List ℕ
deriving DecidableEq

/-- A clique: one conditional, owned children, non-owning parent link.  The
clique's frontal set and separator are those of its conditional. -/
structure CliqueM where
  conditional : CondM
  children : List ℕ
  parent : Option ℕ
deriving DecidableEq

/-- A Bayes tree: clique arena, variable-to-clique index, next fresh id. -/
structure TreeM where
  cliques : List (ℕ × CliqueM)
  varIndex : List (ℕ × ℕ)
  nextId : ℕ
deriving DecidableEq

/-- The structural-error taxonomy entry of section 7 raised by the tree
operations. -/
inductive TreeError where
  | structuralError
deriving DecidableEq

/-- Look a clique up by identifier. -/
def cliqueOf (t : TreeM) (i : ℕ) : Option CliqueM :=
  t.cliques.lookup i

/-- `find(key)`: the variable-to-clique index lookup. -/
def findIndex (t : TreeM) (k : ℕ) : Option ℕ :=
  t.varIndex.lookup k

/-- The parent identifier of a clique (none for roots and unknown ids). -/
def parentOf (t : TreeM) (i : ℕ) : Option ℕ :=
  (cliqueOf t i).bind (fun c => c.parent)

/-- The child identifiers of a clique (empty for unknown ids). -/
def childrenOf (t : TreeM) (i : ℕ) : List ℕ :=
  ((cliqueOf t i).map (fun c => c.children)).getD []

/-- The separator of a clique: its conditional's parent variables. -/
def separatorOf (t : TreeM) (i : ℕ) : List ℕ :=
  ((cliqueOf t i).map (fun c => c.conditional.parents)).getD []

/-- Rewrite the clique stored under an identifier (no-op for unknown ids). -/
def modifyClique (t : TreeM) (i : ℕ) (f : CliqueM → CliqueM) : TreeM :=
  { t with cliques := t.cliques.map (fun p => if p.1 = i then (p.1, f p.2) else p) }

/-- The identifiers on the path from a clique to its root: the clique followed
by its parent chain.  Fuel bounds the walk by the arena size so that the
definition is total on every arena. -/
def ancestorChain (t : TreeM) : ℕ → Option ℕ → List ℕ
  | 0, _ => []
  | _ + 1, none => []
  | fuel + 1, some i => i :: ancestorChain t fuel (parentOf t i)

/-- A clique together with all its ancestors. -/
def selfAndAncestors (t : TreeM) (i : ℕ) : List ℕ :=
  i :: ancestorChain t t.cliques.length (parentOf t i)

/-- Does clique `p` together with its ancestors own every variable of `sep`?
This is the spec's condition for `p` to be the insertion parent: every
separator variable's owning clique is `p` itself or one of `p`'s ancestors. -/
def coversSep (t : TreeM) (sep : List ℕ) (p : ℕ) : Bool :=
  sep.all (fun k =>
    match findIndex t k with
    | some c => (selfAndAncestors t p).contains c
    | none => false)

/-- Modelled from the spec: `findParentClique` of `BayesTree` (section 4.2's
insertion-parent search, not in the source corpus).  For each separator
variable find its owning clique; the target parent is the unique owning clique
of which all the other owning cliques are ancestors.  When a separator
variable is unowned, or no owning clique is an ancestor of the entire
separator (the owners lie in disjoint subtrees), the search fails with a
structural error rather than guessing a placement. -/
def findParentClique (t : TreeM) (sep : List ℕ) : Except TreeError ℕ :=
  match sep.mapM (findIndex t) with
  | none => .error .structuralError
  | some owners =>
    match owners.find? (fun p => coversSep t sep p) with
    | some p => .ok p
    | none => .error .structuralError

/-- Append an index entry for each frontal variable of a new clique. -/
def registerFrontals (idx : List (ℕ × ℕ)) (fs : List ℕ) (i : ℕ) : List (ℕ × ℕ) :=
  idx ++ fs.map (fun k => (k, i))

/-- Add a fresh clique holding a conditional under the given parent (appending
it to the parent's child list) and register its frontal variables. -/
def addClique (t : TreeM) (cond : CondM) (parent : Option ℕ) : TreeM :=
  let i := t.nextId
  let t1 : TreeM :=
    { cliques := t.cliques ++ [(i, { conditional := cond, children := [], parent := parent })],
      varIndex := registerFrontals t.varIndex cond.frontals i,
      nextId := i + 1 }
  match parent with
  | none => t1
  | some p => modifyClique t1 p (fun cl => { cl with children := cl.children ++ [i] })

/-- Modelled from the spec: `insert(conditional)` of section 4.2 (not in the
source corpus).  An empty separator makes the new clique a root; otherwise the
insertion parent is determined by the unique-ancestor search and the call
fails with a structural error when that search fails. -/
def insertConditional (t : TreeM) (c : CondM) : Except TreeError TreeM :=
  if c.parents.isEmpty then
    .ok (addClique t c none)
  else
    (findParentClique t c.parents).map (fun p => addClique t c (some p))

/-- The union of the variable keys of a factor graph (`factors.keys()`). -/
def graphKeys (fg : List FactorM) : List ℕ :=
  (fg.flatMap (fun f => f.keys)).dedup

/-- A conditional converted back into a plain factor, dropping its
conditioning interpretation. -/
def condToFactor (c : CondM) : FactorM :=
  { keys := c.frontals ++ c.parents }

/-- Modelled from the spec: the ordering policy (`factors.getOrdering()`,
section 4.3 step 4 — policy free, but every combined-graph variable exactly
once). -/
def getOrdering (fg : List FactorM) : List ℕ :=
  graphKeys fg

/-- Modelled from the spec: one elimination step of section 4.1.  Collect the
factors touching the variable, combine them into a joint over the union of
their keys, emit the conditional on the variable given the remaining joint
keys, and replace the consumed factors by the residual over those remaining
keys. -/
def eliminateStep (fs : List FactorM) (v : ℕ) : CondM × List FactorM :=
  let touching := fs.filter (fun f => f.keys.contains v)
  let rest := fs.filter (fun f => !(f.keys.contains v))
  let jointKeys := (touching.flatMap (fun f => f.keys)).dedup
  let sepKeys := jointKeys.filter (fun k => k ≠ v)
  ({ frontals := [v], parents := sepKeys },
   if touching.isEmpty then rest else rest ++ [{ keys := sepKeys }])

/-- Modelled from the spec: `eliminate(factors, ordering)` of section 4.1 (not
in the source corpus) — one conditional per ordering position, in elimination
order. -/
def eliminate (fs : List FactorM) : List ℕ → List CondM
  | [] => []
  | v :: vs =>
    let step := eliminateStep fs v
    step.1 :: eliminate step.2 vs

/-- Modelled from the spec: `removeTop(keys)` of section 4.2 (not in the
source corpus).  The contaminated cliques are the owning cliques of the given
keys together with the part of the tree above them (their ancestors), per the
section 8 scenario; keys absent from the index are silently ignored.  Every
removed clique's conditional is returned (converted back to a factor by the
caller), children of removed cliques that are not themselves removed are
returned as orphans with their parent link cleared, and the removed cliques'
frontal variables leave the index.  Result: (freed conditionals, orphans,
reduced tree). -/
def removeTop (t : TreeM) (ks : List ℕ) : List CondM × List ℕ × TreeM :=
  let owners := (ks.filterMap (findIndex t)).dedup
  let collected := (owners.flatMap (fun c => selfAndAncestors t c)).dedup
  let freed := collected.filterMap (fun i => (cliqueOf t i).map (fun cl => cl.conditional))
  let orphans := collected.flatMap
    (fun i => (childrenOf t i).filter (fun ch => !(collected.contains ch)))
  let removedKeys := collected.flatMap
    (fun i => ((cliqueOf t i).map (fun cl => cl.conditional.frontals)).getD [])
  let cliques1 := (t.cliques.filter (fun p => !(collected.contains p.1))).map
    (fun p => if orphans.contains p.1 then (p.1, { p.2 with parent := none }) else p)
  let varIndex1 := t.varIndex.filter (fun kv => !(removedKeys.contains kv.1))
  (freed, orphans, { cliques := cliques1, varIndex := varIndex1, nextId := t.nextId })

/-- The reverse-iterator insertion loop of `update_internal` (lines 57-60 of
the source): walk the Bayes net from `rbegin()` to `rend()` — position
`i - 1` down to position `0` — inserting each conditional into the tree. -/
def insertRevFrom (bn : List CondM) : ℕ → TreeM → Except TreeError TreeM
  | 0, t => .ok t
  | i + 1, t =>
    match bn.get? i with
    | some c => do insertRevFrom bn i (← insertConditional t c)
    | none => insertRevFrom bn i t

/-- One iteration of the orphan loop of `update_internal` (lines 63-69 of the
source): find the parent representative for the orphan's separator, look the
parent clique up, append the orphan to the parent's child list and set the
orphan's parent back-reference.  The two lookups model the validity of the
C++ clique handles (`(*this)[parentRepresentative]` and the orphan pointer);
an unknown identifier is a structural error. -/
def attachOne (t : TreeM) (o : ℕ) : Except TreeError TreeM :=
  match cliqueOf t o with
  | none => .error .structuralError
  | some _ =>
    match findParentClique t (separatorOf t o) with
    | .error e => .error e
    | .ok p =>
      match cliqueOf t p with
      | none => .error .structuralError
      | some _ =>
        .ok (modifyClique
              (modifyClique t p (fun cl => { cl with children := cl.children ++ [o] }))
              o (fun cl => { cl with parent := some p }))

/-- The full orphan loop of `update_internal`: reattach the orphans in order. -/
def reattachOrphans : TreeM → List ℕ → Except TreeError TreeM
  | t, [] => .ok t
  | t, o :: os => do reattachOrphans (← attachOne t o) os

/-- `ISAM::update_internal(newFactors, orphans)`: remove the contaminated top
of the tree, combine the freed conditionals (as factors) with the new factors,
order and eliminate the combined graph, insert the resulting conditionals in
reverse elimination order, and reattach the orphans.  Returns the updated tree
together with the orphan list the removal phase produced (the C++ out
parameter). -/
def update_internal (t : TreeM) (newFactors : List FactorM) :
    Except TreeError (TreeM × List ℕ) :=
  let removed := removeTop t (graphKeys newFactors)
  let bn := removed.1
  let orphans := removed.2.1
  let t1 := removed.2.2
  let factors := bn.map condToFactor ++ newFactors
  let ordering := getOrdering factors
  let bayesNet := eliminate factors ordering
  do
    let t2 ← insertRevFrom bayesNet bayesNet.length t1
    let t3 ← reattachOrphans t2 orphans
    return (t3, orphans)

/-- `ISAM::update(newFactors)`: run `update_internal` and discard the orphan
list. -/
def update (t : TreeM) (newFactors : List FactorM) : Except TreeError TreeM :=
  (update_internal t newFactors).map (fun r => r.1)

/-! ### Concrete example trees

Two concrete update scenarios evaluated below.  Scenario A is the section-8
scenario of the spec: a root clique `0` (frontal `x2 = 2`) with child clique
`1` (frontal `x1 = 1` given `x2`), updated with a factor over `x2, x3`.
Scenario B is a forest with two roots whose update produces two orphans, the
second of which has a separator spanning both remaining subtrees. -/

/-- Scenario A input tree. -/
def exTreeA : TreeM :=
  { cliques := [(0, { conditional := { frontals := [2], parents := [] },
                      children := [1], parent := none }),
                (1, { conditional := { frontals := [1], parents := [2] },
                      children := [], parent := some 0 })],
    varIndex := [(2, 0), (1, 1)], nextId := 2 }

/-- Scenario A new factors: one factor over `x2, x3`. -/
def exNewA : List FactorM := [{ keys := [2, 3] }]

/-- Scenario A result tree: re-elimination produced root clique `2` (frontal
`x3`) and clique `3` (frontal `x2` given `x3`), and the orphan `1` was
reattached under clique `3`. -/
def exTreeA' : TreeM :=
  { cliques := [(1, { conditional := { frontals := [1], parents := [2] },
                      children := [], parent := some 3 }),
                (2, { conditional := { frontals := [3], parents := [] },
                      children := [3], parent := none }),
                (3, { conditional := { frontals := [2], parents := [3] },
                      children := [1], parent := some 2 })],
    varIndex := [(1, 1), (3, 2), (2, 3)], nextId := 4 }

/-- Scenario B input tree: root `0` (frontal `10`) with children `2`
(separator `{10}`) and `3` (separator `{10, 11}`), and a second root `1`
(frontal `11`). -/
def exTreeB : TreeM :=
  { cliques := [(0, { conditional := { frontals := [10], parents := [] },
                      children := [2, 3], parent := none }),
                (1, { conditional := { frontals := [11], parents := [] },
                      children := [], parent := none }),
                (2, { conditional := { frontals := [12], parents := [10] },
                      children := [], parent := some 0 }),
                (3, { conditional := { frontals := [13], parents := [10, 11] },
                      children := [], parent := some 0 })],
    varIndex := [(10, 0), (11, 1), (12, 2), (13, 3)], nextId := 4 }

/-- Scenario B new factors: one factor over key `10`. -/
def exNewB : List FactorM := [{ keys := [10] }]

/-- Scenario B tree after the removal and reverse-order insertion phases:
clique `0` was removed (orphaning `2` and `3`) and key `10` was re-eliminated
into the fresh root clique `4`. -/
def exTreeB2 : TreeM :=
  { cliques := [(1, { conditional := { frontals := [11], parents := [] },
                      children := [], parent := none }),
                (2, { conditional := { frontals := [12], parents := [10] },
                      children := [], parent := none }),
                (3, { conditional := { frontals := [13], parents := [10, 11] },
                      children := [], parent := none }),
                (4, { conditional := { frontals := [10], parents := [] },
                      children := [], parent := none })],
    varIndex := [(11, 1), (12, 2), (13, 3), (10, 4)], nextId := 5 }

/-- Scenario B tree after the first orphan (`2`) has been reattached under
the new root `4`; the second orphan `3` is processed in this tree, where no
clique covers its separator `{10, 11}`. -/
def exTreeBj : TreeM :=
  { cliques := [(1, { conditional := { frontals := [11], parents := [] },
                      children := [], parent := none }),
                (2, { conditional := { frontals := [12], parents := [10] },
                      children := [], parent := some 4 }),
                (3, { conditional := { frontals := [13], parents := [10, 11] },
                      children := [], parent := none }),
                (4, { conditional := { frontals := [10], parents := [] },
                      children := [2], parent := none })],
    varIndex := [(11, 1), (12, 2), (13, 3), (10, 4)], nextId := 5 }

/-! ## Helper lemmas -/

lemma optimizeGo_mem_exists {GC : Type} (a : DiscreteValuesM) (g : GC) :
    ∀ (nodes : List (ℕ × HConditional GC)) (added : List ℕ),
      g ∈ optimizeGo a nodes added →
      ∃ k cond gm, (k, cond) ∈ nodes ∧ cond.kind = CondKind.hybrid gm ∧
        chooseBranch a gm = some g := by
  intro nodes
  induction nodes with
  | nil => intro added h; simp [optimizeGo] at h
  | cons hd rest ih =>
    intro added h
    obtain ⟨k, fr, kind⟩ := hd
    rw [optimizeGo] at h
    by_cases hk : k ∈ added
    · rw [if_pos hk] at h
      obtain ⟨k', cond', gm, hmem, hkind, hch⟩ := ih added h
      exact ⟨k', cond', gm, List.mem_cons_of_mem _ hmem, hkind, hch⟩
    · rw [if_neg hk] at h
      cases kind with
      | hybrid gm =>
        dsimp only at h
        cases hch : chooseBranch a gm with
        | some gc =>
          rw [hch] at h
          rcases List.mem_cons.mp h with hg | hg
          · exact ⟨k, ⟨fr, CondKind.hybrid gm⟩, gm, List.mem_cons_self _ _, rfl, hg ▸ hch⟩
          · obtain ⟨k', cond', gm', hmem, hkind', hch'⟩ := ih _ hg
            exact ⟨k', cond', gm', List.mem_cons_of_mem _ hmem, hkind', hch'⟩
        | none =>
          rw [hch] at h
          obtain ⟨k', cond', gm', hmem, hkind', hch'⟩ := ih _ h
          exact ⟨k', cond', gm', List.mem_cons_of_mem _ hmem, hkind', hch'⟩
      | gaussian gc =>
        dsimp only at h
        obtain ⟨k', cond', gm', hmem, hkind', hch'⟩ := ih _ h
        exact ⟨k', cond', gm', List.mem_cons_of_mem _ hmem, hkind', hch'⟩
      | discrete =>
        dsimp only at h
        obtain ⟨k', cond', gm', hmem, hkind', hch'⟩ := ih _ h
        exact ⟨k', cond', gm', List.mem_cons_of_mem _ hmem, hkind', hch'⟩

lemma optimizeEmitsGo_countP_zero {GC : Type} (a : DiscreteValuesM) (v : ℕ) :
    ∀ (nodes : List (ℕ × HConditional GC)) (added : List ℕ),
      (∀ p ∈ nodes, v ∈ p.2.frontals → p.1 ∈ added) →
      (optimizeEmitsGo a nodes added).countP (fun c => decide (v ∈ c.frontals)) = 0 := by
  intro nodes
  induction nodes with
  | nil => intro added _; simp [optimizeEmitsGo]
  | cons hd rest ih =>
    intro added hB
    obtain ⟨k, cond⟩ := hd
    rw [optimizeEmitsGo]
    by_cases hk : k ∈ added
    · rw [if_pos hk]
      exact ih added (fun p hp hv => hB p (List.mem_cons_of_mem _ hp) hv)
    · rw [if_neg hk]
      have hvni : v ∉ cond.frontals := fun hv =>
        hk (hB (k, cond) (List.mem_cons_self _ _) hv)
      rw [List.countP_cons]
      have hrest : (optimizeEmitsGo a rest (added ++ cond.frontals)).countP
          (fun c => decide (v ∈ c.frontals)) = 0 :=
        ih (added ++ cond.frontals) (fun p hp hv =>
          List.mem_append_left _ (hB p (List.mem_cons_of_mem _ hp) hv))
      simp [hrest, hvni]

lemma optimizeEmitsGo_countP_le_one {GC : Type} (a : DiscreteValuesM) (v : ℕ) :
    ∀ (nodes : List (ℕ × HConditional GC)) (added : List ℕ),
      (∀ p ∈ nodes, p.1 ∈ p.2.frontals) →
      (∀ p ∈ nodes, ∀ q ∈ nodes, p.2 ≠ q.2 → ∀ w ∈ p.2.frontals, w ∉ q.2.frontals) →
      (optimizeEmitsGo a nodes added).countP (fun c => decide (v ∈ c.frontals)) ≤ 1 := by
  intro nodes
  induction nodes with
  | nil => intro added _ _; simp [optimizeEmitsGo]
  | cons hd rest ih =>
    intro added h1 h2
    obtain ⟨k, cond⟩ := hd
    rw [optimizeEmitsGo]
    by_cases hk : k ∈ added
    · rw [if_pos hk]
      exact ih added (fun p hp => h1 p (List.mem_cons_of_mem _ hp))
        (fun p hp q hq => h2 p (List.mem_cons_of_mem _ hp) q (List.mem_cons_of_mem _ hq))
    · rw [if_neg hk, List.countP_cons]
      by_cases hv : v ∈ cond.frontals
      · have hz : (optimizeEmitsGo a rest (added ++ cond.frontals)).countP
            (fun c => decide (v ∈ c.frontals)) = 0 := by
          apply optimizeEmitsGo_countP_zero
          intro p hp hvp
          by_cases heq : p.2 = cond
          · have hk1 : p.1 ∈ p.2.frontals := h1 p (List.mem_cons_of_mem _ hp)
            rw [heq] at hk1
            exact List.mem_append_right _ hk1
          · exact absurd hvp
              (h2 (k, cond) (List.mem_cons_self _ _) p (List.mem_cons_of_mem _ hp)
                (fun hc => heq hc.symm) v hv)
        simp [hz, hv]
      · have hd : (decide (v ∈ cond.frontals)) = false := by simp [hv]
        rw [hd]
        simp only [Bool.false_eq_true, if_false, Nat.add_zero]
        exact ih (added ++ cond.frontals) (fun p hp => h1 p (List.mem_cons_of_mem _ hp))
          (fun p hp q hq => h2 p (List.mem_cons_of_mem _ hp) q (List.mem_cons_of_mem _ hq))

lemma optimizeGo_eq_filterMap {GC : Type} (a : DiscreteValuesM) :
    ∀ (nodes : List (ℕ × HConditional GC)) (added : List ℕ),
      optimizeGo a nodes added =
        (optimizeEmitsGo a nodes added).filterMap (hybridChoice a) := by
  intro nodes
  induction nodes with
  | nil => intro added; simp [optimizeGo, optimizeEmitsGo]
  | cons hd rest ih =>
    intro added
    obtain ⟨k, fr, kind⟩ := hd
    rw [optimizeGo, optimizeEmitsGo]
    by_cases hk : k ∈ added
    · rw [if_pos hk, if_pos hk]
      exact ih added
    · rw [if_neg hk, if_neg hk, List.filterMap_cons]
      cases kind with
      | hybrid gm =>
        dsimp only [hybridChoice]
        cases hch : chooseBranch a gm with
        | some gc => simp only [hch]; rw [ih]
        | none => simp only [hch]; exact ih _
      | gaussian gc => dsimp only [hybridChoice]; exact ih _
      | discrete => dsimp only [hybridChoice]; exact ih _

lemma insertRevFrom_take_eq (bn : List CondM) :
    ∀ (i : ℕ), i ≤ bn.length → ∀ (t : TreeM),
      insertRevFrom bn i t = ((bn.take i).reverse).foldlM insertConditional t := by
  intro i
  induction i with
  | zero => intro _ t; simp [insertRevFrom, List.foldlM_nil]; rfl
  | succ i ih =>
    intro hle t
    have hi : i < bn.length := Nat.lt_of_succ_le hle
    have hc : bn.get? i = some (bn.get ⟨i, hi⟩) := List.get?_eq_get hi
    have htake : bn.take (i + 1) = bn.take i ++ [bn.get ⟨i, hi⟩] := by
      rw [List.take_succ]
      simp [← List.get?_eq_getElem?, hc]
    rw [insertRevFrom, hc, htake, List.reverse_append]
    simp only [List.reverse_singleton, List.singleton_append, List.foldlM_cons]
    cases hins : insertConditional t (bn.get ⟨i, hi⟩) with
    | error e => simp [hins, Bind.bind, Except.bind]
    | ok t' =>
      simp only [hins, Bind.bind, Except.bind]
      exact ih (Nat.le_of_lt hi) t'

lemma removeTop_nil (t : TreeM) : removeTop t [] = ([], [], t) := by
  simp only [removeTop, List.filterMap_nil, List.dedup_nil, List.flatMap_nil,
    List.contains_nil, Bool.not_false, List.filter_true, if_false, Bool.false_eq_true,
    if_neg, List.map_id']

lemma lookup_map_modify (l : List (ℕ × CliqueM)) (i j : ℕ) (f : CliqueM → CliqueM) :
    (l.map (fun p => if p.1 = i then (p.1, f p.2) else p)).lookup j =
      if j = i then (l.lookup j).map f else l.lookup j := by
  induction l with
  | nil => simp [List.lookup]
  | cons hd tl ih =>
    obtain ⟨k, cl⟩ := hd
    simp only [List.map_cons]
    by_cases hki : k = i
    · rw [if_pos hki]
      by_cases hjk : j = k
      · have hji : j = i := hjk.trans hki
        simp [List.lookup, hjk, hji, hki]
      · have hbeq : (j == k) = false := by simp [hjk]
        rw [List.lookup, List.lookup]
        simp only [hbeq]
        exact ih
    · rw [if_neg hki]
      by_cases hjk : j = k
      · have hji : ¬(j = i) := fun hc => hki (hjk ▸ hc)
        simp [List.lookup, hjk, hji, hki]
      · have hbeq : (j == k) = false := by simp [hjk]
        rw [List.lookup, List.lookup]
        simp only [hbeq]
        exact ih

lemma cliqueOf_modify (t : TreeM) (i j : ℕ) (f : CliqueM → CliqueM) :
    cliqueOf (modifyClique t i f) j =
      if j = i then (cliqueOf t j).map f else cliqueOf t j :=
  lookup_map_modify t.cliques i j f

lemma lookup_some_mem_fst {l : List (ℕ × CliqueM)} {j : ℕ} {v : CliqueM}
    (h : l.lookup j = some v) : j ∈ l.map Prod.fst := by
  induction l with
  | nil => simp [List.lookup] at h
  | cons hd tl ih =>
    obtain ⟨k, cl⟩ := hd
    by_cases hjk : j = k
    · subst hjk
      simp
    · have hbeq : (j == k) = false := by simp [hjk]
      rw [List.lookup, hbeq] at h
      exact List.mem_cons_of_mem _ (ih h)

lemma separatorOf_modify (t : TreeM) (i j : ℕ) (f : CliqueM → CliqueM)
    (hf : ∀ cl, (f cl).conditional = cl.conditional) :
    separatorOf (modifyClique t i f) j = separatorOf t j := by
  unfold separatorOf
  rw [cliqueOf_modify]
  by_cases hji : j = i
  · rw [if_pos hji]
    cases cliqueOf t j with
    | none => rfl
    | some cl => simp [hf]
  · rw [if_neg hji]

lemma parentOf_modify_of_ne (t : TreeM) (i j : ℕ) (f : CliqueM → CliqueM)
    (hji : j ≠ i) : parentOf (modifyClique t i f) j = parentOf t j := by
  unfold parentOf
  rw [cliqueOf_modify, if_neg hji]

lemma parentOf_modify_preserve (t : TreeM) (i j : ℕ) (f : CliqueM → CliqueM)
    (hf : ∀ cl, (f cl).parent = cl.parent) :
    parentOf (modifyClique t i f) j = parentOf t j := by
  unfold parentOf
  rw [cliqueOf_modify]
  by_cases hji : j = i
  · rw [if_pos hji]
    cases cliqueOf t j with
    | none => rfl
    | some cl => simp [hf]
  · rw [if_neg hji]

lemma childrenOf_modify_mono (t : TreeM) (q j x : ℕ) (f : CliqueM → CliqueM)
    (hf : ∀ cl, ∀ y ∈ cl.children, y ∈ (f cl).children)
    (hx : x ∈ childrenOf t j) : x ∈ childrenOf (modifyClique t q f) j := by
  unfold childrenOf at hx ⊢
  rw [cliqueOf_modify]
  by_cases hjq : j = q
  · rw [if_pos hjq]
    cases hc : cliqueOf t j with
    | none => rw [hc] at hx; simp at hx
    | some cl =>
      rw [hc] at hx
      simpa using hf cl x (by simpa using hx)
  · rw [if_neg hjq]
    exact hx

lemma findParentClique_ok_covers {t : TreeM} {sep : List ℕ} {p : ℕ}
    (h : findParentClique t sep = .ok p) : coversSep t sep p = true := by
  unfold findParentClique at h
  split at h
  · exact Except.noConfusion h
  · split at h
    · rename_i hf
      have hq := List.find?_some hf
      exact (Except.ok.inj h) ▸ hq
    · exact Except.noConfusion h

lemma attachOne_ok {t : TreeM} {o : ℕ} {t1 : TreeM} (h : attachOne t o = .ok t1) :
    ∃ p, findParentClique t (separatorOf t o) = .ok p ∧
      parentOf t1 o = some p ∧ o ∈ childrenOf t1 p ∧
      (∀ j, separatorOf t1 j = separatorOf t j) ∧
      (∀ j, j ≠ o → parentOf t1 j = parentOf t j) ∧
      (∀ j x, x ∈ childrenOf t j → x ∈ childrenOf t1 j) := by
  unfold attachOne at h
  split at h
  · exact Except.noConfusion h
  · rename_i clo hco
    split at h
    · exact Except.noConfusion h
    · rename_i p hfp
      split at h
      · exact Except.noConfusion h
      · rename_i clp hcp
        have ht1 : t1 = modifyClique
            (modifyClique t p (fun cl => { cl with children := cl.children ++ [o] }))
            o (fun cl => { cl with parent := some p }) := (Except.ok.inj h).symm
        subst ht1
        refine ⟨p, hfp, ?_, ?_, ?_, ?_, ?_⟩
        · unfold parentOf
          rw [cliqueOf_modify, if_pos rfl, cliqueOf_modify]
          by_cases hop : o = p
          · rw [if_pos hop, hop, hcp]; rfl
          · rw [if_neg hop, hco]; rfl
        · unfold childrenOf
          by_cases hpo : p = o
          · subst hpo
            simp [cliqueOf_modify, hcp]
          · simp [cliqueOf_modify, hcp, hpo]
        · intro j
          rw [separatorOf_modify, separatorOf_modify]
          · exact fun cl => rfl
          · exact fun cl => rfl
        · intro j hj
          rw [parentOf_modify_of_ne _ _ _ _ hj, parentOf_modify_preserve]
          exact fun cl => rfl
        · intro j x hx
          refine childrenOf_modify_mono _ o j x _ (fun cl y hy => hy) ?_
          exact childrenOf_modify_mono _ p j x _
            (fun cl y hy => List.mem_append_left _ hy) hx

lemma reattachOrphans_preserve : ∀ (os : List ℕ) (t t' : TreeM),
    reattachOrphans t os = .ok t' →
    (∀ j, separatorOf t' j = separatorOf t j) ∧
    (∀ j, j ∉ os → parentOf t' j = parentOf t j) ∧
    (∀ j x, x ∈ childrenOf t j → x ∈ childrenOf t' j) := by
  intro os
  induction os with
  | nil =>
    intro t t' h
    have : t = t' := Except.ok.inj h
    subst this
    exact ⟨fun _ => rfl, fun _ _ => rfl, fun _ _ hx => hx⟩
  | cons o os ih =>
    intro t t' h
    rw [reattachOrphans] at h
    cases hA : attachOne t o with
    | error e => rw [hA] at h; exact Except.noConfusion h
    | ok t1 =>
      rw [hA] at h
      simp only [Bind.bind, Except.bind] at h
      obtain ⟨p, _, _, _, hsep1, hpar1, hch1⟩ := attachOne_ok hA
      obtain ⟨hsep2, hpar2, hch2⟩ := ih t1 t' h
      refine ⟨fun j => (hsep2 j).trans (hsep1 j), ?_, ?_⟩
      · intro j hj
        have hjo : j ≠ o := fun hc => hj (hc ▸ List.mem_cons_self _ _)
        have hjos : j ∉ os := fun hc => hj (List.mem_cons_of_mem _ hc)
        exact (hpar2 j hjos).trans (hpar1 j hjo)
      · intro j x hx
        exact hch2 j x (hch1 j x hx)

lemma reattach_links_at : ∀ (os : List ℕ) (s t' : TreeM),
    reattachOrphans s os = .ok t' →
    ∀ o ∈ os, ∃ j, ∃ hj : j < os.length, ∃ tj p,
      os.get ⟨j, hj⟩ = o ∧
      reattachOrphans s (os.take j) = .ok tj ∧
      findParentClique tj (separatorOf tj o) = .ok p ∧
      separatorOf tj o = separatorOf t' o ∧
      parentOf t' o = some p ∧ o ∈ childrenOf t' p := by
  intro os
  induction os with
  | nil => intro s t' _ o ho; simp at ho
  | cons o0 rest ih =>
    intro s t' h o ho
    rw [reattachOrphans] at h
    cases hA : attachOne s o0 with
    | error e => rw [hA] at h; exact Except.noConfusion h
    | ok t1 =>
      rw [hA] at h
      simp only [Bind.bind, Except.bind] at h
      by_cases hos : o ∈ rest
      · obtain ⟨j, hj, tj, p, hget, hpre, hfp, hsep, hpar, hch⟩ := ih t1 t' h o hos
        refine ⟨j + 1, Nat.succ_lt_succ hj, tj, p, hget, ?_, hfp, hsep, hpar, hch⟩
        rw [List.take_succ_cons, reattachOrphans]
        simp only [hA, Bind.bind, Except.bind]
        exact hpre
      · have ho0 : o = o0 := by
          rcases List.mem_cons.mp ho with h1 | h1
          · exact h1
          · exact absurd h1 hos
        subst ho0
        obtain ⟨p, hfp, hpar1, hch1, hsep1, _, _⟩ := attachOne_ok hA
        obtain ⟨hsep2, hpar2, hch2⟩ := reattachOrphans_preserve rest t1 t' h
        refine ⟨0, Nat.succ_pos _, s, p, rfl, rfl, hfp, ?_, ?_, ?_⟩
        · rw [hsep2 o, hsep1 o]
        · rw [hpar2 o hos, hpar1]
        · exact hch2 p o hch1

lemma reattach_head_fails {t : TreeM} {o : ℕ}
    (h : ∀ p ∈ t.cliques.map Prod.fst, coversSep t (separatorOf t o) p = false) :
    ∀ os, reattachOrphans t (o :: os) = .error .structuralError := by
  intro os
  have hA : attachOne t o = .error .structuralError := by
    unfold attachOne
    split
    · rfl
    · split
      · rename_i e _
        cases e
        rfl
      · rename_i p hfp
        have hcov : coversSep t (separatorOf t o) p = true := findParentClique_ok_covers hfp
        split
        · rfl
        · rename_i clp hcp
          have hpm : p ∈ t.cliques.map Prod.fst := lookup_some_mem_fst hcp
          rw [h p hpm] at hcov
          exact Bool.noConfusion hcov
  rw [reattachOrphans, hA]
  rfl

lemma reattach_fails_at : ∀ (os : List ℕ) (s : TreeM) (j : ℕ) (hj : j < os.length),
    (∀ tj, reattachOrphans s (os.take j) = .ok tj →
      ∀ p ∈ tj.cliques.map Prod.fst,
        coversSep tj (separatorOf tj (os.get ⟨j, hj⟩)) p = false) →
    reattachOrphans s os = .error .structuralError := by
  intro os
  induction os with
  | nil => intro s j hj _; exact absurd hj (by simp)
  | cons o0 rest ih =>
    intro s j hj hcov
    cases j with
    | zero =>
      exact reattach_head_fails (hcov s rfl) rest
    | succ jj =>
      have hjj : jj < rest.length := Nat.lt_of_succ_lt_succ hj
      rw [reattachOrphans]
      cases hA : attachOne s o0 with
      | error e =>
        cases e
        simp [Bind.bind, Except.bind]
      | ok t1 =>
        simp only [Bind.bind, Except.bind]
        apply ih t1 jj hjj
        intro tj htj
        have hpre : reattachOrphans s ((o0 :: rest).take (jj + 1)) = .ok tj := by
          rw [List.take_succ_cons, reattachOrphans]
          simp only [hA, Bind.bind, Except.bind]
          exact htj
        exact hcov tj hpre

lemma update_internal_ok {t : TreeM} {nf : List FactorM} {t' : TreeM} {os : List ℕ}
    (h : update_internal t nf = .ok (t', os)) :
    os = (removeTop t (graphKeys nf)).2.1 ∧
    ∃ t2,
      insertRevFrom
          (eliminate ((removeTop t (graphKeys nf)).1.map condToFactor ++ nf)
            (getOrdering ((removeTop t (graphKeys nf)).1.map condToFactor ++ nf)))
          (eliminate ((removeTop t (graphKeys nf)).1.map condToFactor ++ nf)
            (getOrdering ((removeTop t (graphKeys nf)).1.map condToFactor ++ nf))).length
          (removeTop t (graphKeys nf)).2.2 = .ok t2 ∧
      reattachOrphans t2 os = .ok t' := by
  unfold update_internal at h
  simp only [Bind.bind, Except.bind] at h
  split at h
  · exact Except.noConfusion h
  · rename_i t2 hins
    split at h
    · exact Except.noConfusion h
    · rename_i t3 hre
      simp only [Pure.pure, Except.pure] at h
      have hp := Except.ok.inj h
      have ht3 : t3 = t' := congrArg Prod.fst hp
      have hos : (removeTop t (graphKeys nf)).2.1 = os := congrArg Prod.snd hp
      exact ⟨hos.symm, t2, hins, by rw [← hos, hre, ht3]⟩

/-! ## Claim theorems and witnesses -/

/-- C8: `HybridDiscreteFactor::equals` returns `false` for every pair of
wrapped discrete factors and every tolerance — also when both arguments are
the same factor — so it is not reflexive and never reports two wrapped
discrete factors as equal. -/
theorem hdf_equals_always_false (a b : HybridDiscreteFactorM) (tol : ℚ) :
    a.equals b tol = false ∧ a.equals a tol = false :=
  ⟨rfl, rfl⟩

/-- C10: for a hard-equality factor built by the exact constructor
(`allow_error_ = false`), `NonlinearEquality::error` returns exactly `0.0`
when the stored compare function declares the configuration's value for the
constrained key equal to the feasible value, and `error_gain_` times the
squared norm of the unwhitened error otherwise. -/
theorem nonlinear_equality_error_exact {T : Type} (key : ℕ) (feasible : T)
    (cmp : T → T → Bool) (d : ℕ) (lm : T → T → List Dbl) (c : ℕ → T) :
    errorFn (mkExact key feasible cmp d lm) c =
      if cmp (c key) feasible then 0
      else
        (mkExact key feasible cmp d lm).error_gain *
          innerProd (unwhitenedError (mkExact key feasible cmp d lm) c)
            (unwhitenedError (mkExact key feasible cmp d lm) c) := by
  cases hc : cmp (c key) feasible <;> simp [errorFn, mkExact, hc]

/-- C5: a hard-equality factor (`allow_error_ = false`) evaluated at an
infeasible linearization point with the Jacobian requested reports the
failure as an error; in particular `linearize` at an infeasible point
propagates that error instead of producing a factor with non-finite entries. -/
theorem nonlinear_equality_infeasible_reports {T : Type}
    (f : NonlinearEqualityM T) (x : ℕ → T)
    (hexact : f.allow_error = false)
    (hinfeasible : f.compare f.feasible (x f.key) = false) :
    ∃ msg, evaluateError f (x f.key) true = .error msg ∧
      linearize f x = .error msg := by
  refine ⟨"Linearization point not feasible for " ++ toString f.key ++ "!", ?_, ?_⟩
  · simp [evaluateError, hexact, hinfeasible]
  · simp [linearize, evaluateError, hexact, hinfeasible, Bind.bind, Except.bind]

/-- Witness for C5 at a concrete factor: key `5`, feasible value `0 : ℕ`,
current value `1`. -/
theorem nonlinear_equality_infeasible_reports_witness :
    ∃ msg,
      evaluateError (mkExact 5 (0 : ℕ) (fun a b => a == b) 1 (fun _ _ => [1])) 1 true
        = .error msg ∧
      linearize (mkExact 5 (0 : ℕ) (fun a b => a == b) 1 (fun _ _ => [1])) (fun _ => 1)
        = .error msg :=
  nonlinear_equality_infeasible_reports
    (mkExact 5 (0 : ℕ) (fun a b => a == b) 1 (fun _ _ => [1])) (fun _ => 1) rfl rfl

/-- C4: a clique holding a hybrid conditional over continuous `y` given a
binary discrete `m`, with one stored Gaussian branch per value of `m`:
`optimize` under the assignment `m = 0` produces a Gaussian Bayes net that
contains exactly the branch-0 conditional and does not contain the branch-1
conditional. -/
theorem hybrid_optimize_selects_branch {GC : Type} (g0 g1 : GC) (y m : ℕ)
    (hne : g0 ≠ g1) :
    optimizeGBN [(y, ⟨[y], CondKind.hybrid
        (GaussianMixture.choice m [GaussianMixture.leaf g0, GaussianMixture.leaf g1])⟩)]
      [(m, 0)] = [g0] ∧
    g1 ∉ optimizeGBN [(y, ⟨[y], CondKind.hybrid
        (GaussianMixture.choice m [GaussianMixture.leaf g0, GaussianMixture.leaf g1])⟩)]
      [(m, 0)] := by
  have hrun : optimizeGBN [(y, ⟨[y], CondKind.hybrid
      (GaussianMixture.choice m [GaussianMixture.leaf g0, GaussianMixture.leaf g1])⟩)]
      [(m, 0)] = [g0] := by
    simp [optimizeGBN, optimizeGo, chooseBranch, List.lookup]
  refine ⟨hrun, ?_⟩
  rw [hrun]
  simp only [List.mem_singleton]
  exact fun hc => hne hc.symm

/-- Witness for C4 with concrete Gaussian conditionals `10 ≠ 20` and keys
`y = 0`, `m = 1`. -/
theorem hybrid_optimize_selects_branch_witness :
    optimizeGBN [(0, ⟨[0], CondKind.hybrid
        (GaussianMixture.choice 1 [GaussianMixture.leaf (10 : ℕ), GaussianMixture.leaf 20])⟩)]
      [(1, 0)] = [10] ∧
    20 ∉ optimizeGBN [(0, ⟨[0], CondKind.hybrid
        (GaussianMixture.choice 1 [GaussianMixture.leaf (10 : ℕ), GaussianMixture.leaf 20])⟩)]
      [(1, 0)] :=
  hybrid_optimize_selects_branch 10 20 0 1 (by decide)

/-- C3: the `added_keys` seen-set of `HybridBayesTree::optimize` guarantees
that each clique's conditional is processed at most once per frontal variable,
however the `nodes()` entries are ordered and however many entries map to the
same clique: under the index invariants (every entry's key is frontal in its
clique; distinct cliques have disjoint frontal sets) at most one guard-passing
conditional contains any given frontal variable, and the produced Gaussian
Bayes net is exactly what those guard-passing conditionals contribute — so a
clique already visited under one of its keys is never emitted again under
another key. -/
theorem hybrid_optimize_once_per_frontal {GC : Type}
    (nodes : List (ℕ × HConditional GC)) (a : DiscreteValuesM)
    (h1 : ∀ p ∈ nodes, p.1 ∈ p.2.frontals)
    (h2 : ∀ p ∈ nodes, ∀ q ∈ nodes, p.2 ≠ q.2 → ∀ w ∈ p.2.frontals, w ∉ q.2.frontals) :
    optimizeGBN nodes a = (optimizeEmits nodes a).filterMap (hybridChoice a) ∧
    ∀ v, (optimizeEmits nodes a).countP (fun c => decide (v ∈ c.frontals)) ≤ 1 :=
  ⟨optimizeGo_eq_filterMap a nodes [],
   fun v => optimizeEmitsGo_countP_le_one a v nodes [] h1 h2⟩

/-- Witness for C3: one clique with frontals `{5, 6}` listed in the node index
under both of its keys. -/
theorem hybrid_optimize_once_per_frontal_witness :
    (optimizeGBN
        [(5, (⟨[5, 6], CondKind.hybrid (GaussianMixture.leaf (3 : ℕ))⟩ : HConditional ℕ)),
         (6, ⟨[5, 6], CondKind.hybrid (GaussianMixture.leaf 3)⟩)] [] =
      (optimizeEmits
        [(5, (⟨[5, 6], CondKind.hybrid (GaussianMixture.leaf (3 : ℕ))⟩ : HConditional ℕ)),
         (6, ⟨[5, 6], CondKind.hybrid (GaussianMixture.leaf 3)⟩)] []).filterMap
        (hybridChoice []) ∧
    ∀ v, ((optimizeEmits
        [(5, (⟨[5, 6], CondKind.hybrid (GaussianMixture.leaf (3 : ℕ))⟩ : HConditional ℕ)),
         (6, ⟨[5, 6], CondKind.hybrid (GaussianMixture.leaf 3)⟩)] []).countP
        (fun c => decide (v ∈ c.frontals))) ≤ 1) := by
  apply hybrid_optimize_once_per_frontal
  · decide
  · intro p hp q hq hne w _
    have hpc : p.2 = (⟨[5, 6], CondKind.hybrid (GaussianMixture.leaf 3)⟩ : HConditional ℕ) := by
      rcases List.mem_cons.mp hp with h | h
      · rw [h]
      · rw [List.mem_singleton.mp h]
    have hqc : q.2 = (⟨[5, 6], CondKind.hybrid (GaussianMixture.leaf 3)⟩ : HConditional ℕ) := by
      rcases List.mem_cons.mp hq with h | h
      · rw [h]
      · rw [List.mem_singleton.mp h]
    exact absurd (hpc.trans hqc.symm) hne

/-- C9: every conditional of the Gaussian Bayes net built by
`HybridBayesTree::optimize` comes from a clique whose conditional is hybrid
(it is the branch that the assignment selects from that clique's decision
mapping); cliques holding purely continuous Gaussian conditionals contribute
nothing, the same as purely discrete cliques. -/
theorem hybrid_optimize_only_hybrid_contributes {GC : Type}
    (nodes : List (ℕ × HConditional GC)) (a : DiscreteValuesM) (g : GC)
    (hg : g ∈ optimizeGBN nodes a) :
    ∃ k cond gm, (k, cond) ∈ nodes ∧ cond.kind = CondKind.hybrid gm ∧
      chooseBranch a gm = some g :=
  optimizeGo_mem_exists a g nodes [] hg

/-- Witness for C9 at a one-clique tree whose mixture is a single leaf `7`. -/
theorem hybrid_optimize_only_hybrid_contributes_witness :
    ∃ k cond gm,
      (k, cond) ∈ [(0, (⟨[0], CondKind.hybrid (GaussianMixture.leaf (7 : ℕ))⟩ :
          HConditional ℕ))] ∧
      cond.kind = CondKind.hybrid gm ∧ chooseBranch [] gm = some 7 :=
  hybrid_optimize_only_hybrid_contributes
    [(0, ⟨[0], CondKind.hybrid (GaussianMixture.leaf (7 : ℕ))⟩)] [] 7
    (by simp [optimizeGBN, optimizeGo, chooseBranch])

/-- C2: the insertion phase of `update_internal` — the walk of the new Bayes
net with reverse iterators (`rbegin()` to `rend()`), starting at position
`length - 1` — performs exactly the successive insertions of the conditionals
of the reversed Bayes net: the last-eliminated conditional is inserted first,
down to the first-eliminated conditional.  `update_internal` applies
`insertRevFrom` to `eliminate`'s output, so the conditionals produced by
eliminating the combined graph enter the tree in reverse elimination order. -/
theorem insert_phase_reverse_elimination_order (bn : List CondM) (t : TreeM) :
    insertRevFrom bn bn.length t = (bn.reverse).foldlM insertConditional t := by
  rw [insertRevFrom_take_eq bn bn.length (Nat.le_refl _) t, List.take_length]

/-- C7: when `update_internal` completes successfully, every orphan returned
by the removal phase (the returned list `os` is exactly `removeTop`'s orphan
list) has been reattached, and the reattachment is the one the run actually
performed: `t2` is pinned as the tree the insertion phase produced, `tj` is
pinned as the tree obtained by reattaching the first `j` orphans (the rebuilt
tree as it stands when orphan `os[j] = o` is processed), the parent `p` is
pinned as the result of the insertion-parent search (`findParentClique`, the
same rule as `insert`) on the orphan's separator in `tj`, that parent covers
the orphan's entire separator there (every separator variable is owned by `p`
or one of `p`'s ancestors), and in the final tree both link directions are
updated: the orphan is in `p`'s child list and the orphan's parent
back-reference points at `p`. -/
theorem update_internal_reattaches_orphans (t : TreeM) (nf : List FactorM)
    (t' : TreeM) (os : List ℕ) (h : update_internal t nf = .ok (t', os)) :
    os = (removeTop t (graphKeys nf)).2.1 ∧
    ∃ t2,
      insertRevFrom
          (eliminate ((removeTop t (graphKeys nf)).1.map condToFactor ++ nf)
            (getOrdering ((removeTop t (graphKeys nf)).1.map condToFactor ++ nf)))
          (eliminate ((removeTop t (graphKeys nf)).1.map condToFactor ++ nf)
            (getOrdering ((removeTop t (graphKeys nf)).1.map condToFactor ++ nf))).length
          (removeTop t (graphKeys nf)).2.2 = .ok t2 ∧
      reattachOrphans t2 os = .ok t' ∧
      ∀ o ∈ os, ∃ j, ∃ hj : j < os.length, ∃ tj p,
        os.get ⟨j, hj⟩ = o ∧
        reattachOrphans t2 (os.take j) = .ok tj ∧
        findParentClique tj (separatorOf tj o) = .ok p ∧
        coversSep tj (separatorOf tj o) p = true ∧
        separatorOf tj o = separatorOf t' o ∧
        parentOf t' o = some p ∧ o ∈ childrenOf t' p := by
  obtain ⟨hos, t2, hins, hre⟩ := update_internal_ok h
  refine ⟨hos, t2, hins, hre, ?_⟩
  intro o ho
  obtain ⟨j, hj, tj, p, hget, hpre, hfp, hsep, hpar, hch⟩ :=
    reattach_links_at os t2 t' hre o ho
  exact ⟨j, hj, tj, p, hget, hpre, hfp, findParentClique_ok_covers hfp, hsep, hpar, hch⟩

/-- Witness for C7: the section-8 scenario `exTreeA` updated with `exNewA`,
which succeeds with result `exTreeA'` and the single orphan `1`; every
conjunct — including the pinned intermediate trees and the parent search —
is instantiated at this concrete run. -/
theorem update_internal_reattaches_orphans_witness :
    ([1] : List ℕ) = (removeTop exTreeA (graphKeys exNewA)).2.1 ∧
    ∃ t2,
      insertRevFrom
          (eliminate ((removeTop exTreeA (graphKeys exNewA)).1.map condToFactor ++ exNewA)
            (getOrdering ((removeTop exTreeA (graphKeys exNewA)).1.map condToFactor ++ exNewA)))
          (eliminate ((removeTop exTreeA (graphKeys exNewA)).1.map condToFactor ++ exNewA)
            (getOrdering ((removeTop exTreeA (graphKeys exNewA)).1.map condToFactor ++ exNewA))).length
          (removeTop exTreeA (graphKeys exNewA)).2.2 = .ok t2 ∧
      reattachOrphans t2 [1] = .ok exTreeA' ∧
      ∀ o ∈ ([1] : List ℕ), ∃ j, ∃ hj : j < ([1] : List ℕ).length, ∃ tj p,
        ([1] : List ℕ).get ⟨j, hj⟩ = o ∧
        reattachOrphans t2 (([1] : List ℕ).take j) = .ok tj ∧
        findParentClique tj (separatorOf tj o) = .ok p ∧
        coversSep tj (separatorOf tj o) p = true ∧
        separatorOf tj o = separatorOf exTreeA' o ∧
        parentOf exTreeA' o = some p ∧ o ∈ childrenOf exTreeA' p :=
  update_internal_reattaches_orphans exTreeA exNewA exTreeA' [1] (by decide)

/-- C1: if, after the removal and re-elimination phases of an update, any
orphan's separator has no single covering clique in the rebuilt tree as it
stands when that orphan is reattached (no clique of that tree is an ancestor
of the orphan's entire separator — its separator variables are rooted in
disjoint subtrees), then `update_internal` fails with a structural error: no
tree is returned and the orphan is not silently attached to a guessed parent.
`t2` is pinned as the tree the insertion phase produced and `j` is the
position of the orphan in the removal phase's orphan list; the covering
hypothesis quantifies over the tree actually reached by reattaching the first
`j` orphans (and is vacuous when an earlier orphan already fails — in that
case the update fails with the structural error all the same, which the
theorem also asserts). -/
theorem update_internal_fails_on_disjoint_orphan (t : TreeM) (nf : List FactorM)
    (t2 : TreeM) (j : ℕ)
    (hj : j < (removeTop t (graphKeys nf)).2.1.length)
    (hins : insertRevFrom
        (eliminate ((removeTop t (graphKeys nf)).1.map condToFactor ++ nf)
          (getOrdering ((removeTop t (graphKeys nf)).1.map condToFactor ++ nf)))
        (eliminate ((removeTop t (graphKeys nf)).1.map condToFactor ++ nf)
          (getOrdering ((removeTop t (graphKeys nf)).1.map condToFactor ++ nf))).length
        (removeTop t (graphKeys nf)).2.2 = .ok t2)
    (hcov : ∀ tj, reattachOrphans t2 ((removeTop t (graphKeys nf)).2.1.take j) = .ok tj →
        ∀ p ∈ tj.cliques.map Prod.fst,
          coversSep tj
            (separatorOf tj ((removeTop t (graphKeys nf)).2.1.get ⟨j, hj⟩)) p = false) :
    update_internal t nf = .error .structuralError := by
  unfold update_internal
  simp only [Bind.bind, Except.bind]
  rw [hins]
  dsimp only
  rw [reattach_fails_at (removeTop t (graphKeys nf)).2.1 t2 j hj hcov]

/-- Witness for C1 with the disjoint orphan in second position (`j = 1`):
updating `exTreeB` with `exNewB` produces the orphans `[2, 3]`; orphan `2`
reattaches under the fresh root `4` (yielding `exTreeBj`), and orphan `3`,
whose separator `{10, 11}` is owned by the two disjoint roots `4` and `1`,
has no covering clique there — so the update fails with a structural error. -/
theorem update_internal_fails_on_disjoint_orphan_witness :
    update_internal exTreeB exNewB = .error .structuralError :=
  update_internal_fails_on_disjoint_orphan exTreeB exNewB exTreeB2 1 (by decide) (by decide)
    (fun tj htj => by
      have heq : (Except.ok tj : Except TreeError TreeM) = .ok exTreeBj := by
        rw [← htj]
        decide
      have htjeq := Except.ok.inj heq
      subst htjeq
      decide)

/-- C6: updating with an empty factor set is a no-op: the tree — its
variable-to-clique index and every stored conditional — is returned
unchanged, and no orphans are produced. -/
theorem update_empty_noop (t : TreeM) : update_internal t [] = .ok (t, []) := by
  simp [update_internal, graphKeys, removeTop_nil, getOrdering, condToFactor,
    eliminate, insertRevFrom, reattachOrphans, Bind.bind, Except.bind,
    Pure.pure, Except.pure]

end Spec2Proof
